import Mathlib

/- Shallow embedding of obspy/core/util/decorator.py: the uncompress_file
dispatcher (lines 134-209) and the deprecated_keywords keyword remapper
(lines 54-108). Filesystem and archive-library behaviour visible to that
code is represented by explicit data (FSFile); the reader capability, its
result type and the kwargs value type are parameters. -/

namespace ObsPy

/-- A byte string: contents of one archive member, a zip comment, ... -/
abbrev Bytes := List Nat

/-- One extracted archive member's contents ("obj" in the source). -/
abbrev Payload := Bytes

/-- One event seen while `tarfile.open(filename, r).* ` iterates members
(lines 151-162): a regular file with its contents, a directory/special
member, or the point where the tar library raises. -/
inductive TarEntry where
  | regular (data : Payload)
  | special
  | failure
deriving DecidableEq

/-- What `zipfile.ZipFile(filename)` exposes when opening succeeds: the
archive comment and, per name in `namelist()` order, the outcome of
`zip.read(name)` (`none` models the read raising). -/
structure ZipData where
  comment : Bytes
  members : List (Option Payload)
deriving DecidableEq

/-- The filesystem's view of one path, as consulted by `uncompress_file`
lines 143-192: existence, `tarfile.is_tarfile`, `zipfile.is_zipfile`, the
tar member stream, the zip-open outcome (`none` models `ZipFile` raising),
and the bz2/gzip decompression outcomes (`none` models a raise). -/
structure FSFile where
  pathExists : Bool
  isTar : Bool
  isZip : Bool
  tarEntries : List TarEntry
  zipOpen : Option ZipData
  bz2Data : Option Payload
  gzData : Option Payload
deriving DecidableEq

/-- The bytes of the opt-out token `b"obspy_no_uncompress"` (line 168). -/
def markerBytes : Bytes := "obspy_no_uncompress".toList.map Char.toNat

/-- Python's `pat in bytes` substring test. -/
def containsSeq (pat l : Bytes) : Bool :=
  l.tails.any (fun t => pat.isPrefixOf t)

/-- Python's `str.endswith(suf)` (lines 177 and 185). -/
def strEndsWith (s suf : String) : Bool :=
  suf.data.isSuffixOf s.data

/-- The tar loop of lines 151-162: collect contents of regular members,
skipping special members and empty contents; a raise (`TarEntry.failure`)
stops the loop but the `except: pass` of line 163 keeps what was already
appended to `obj_list`. -/
def tarExtract : List TarEntry → List Payload
  | [] => []
  | TarEntry.regular d :: rest =>
      if d.isEmpty then tarExtract rest else d :: tarExtract rest
  | TarEntry.special :: rest => tarExtract rest
  | TarEntry.failure :: _ => []

/-- The list comprehension `[zip.read(name) for name in zip.namelist()]`
(line 174): it only produces a value if every read succeeds. -/
def allSome : List (Option Payload) → Option (List Payload)
  | [] => some []
  | none :: _ => none
  | some d :: rest => (allSome rest).map (fun l => d :: l)

/-- The zip branch, lines 165-176. The result models Python's `obj_list`
after the branch: `none` is Python's `None` (opt-out marker found), and a
raise anywhere in the `try` leaves `obj_list` at its initial `[]`. -/
def zipObjList (z : Option ZipData) : Option (List Payload) :=
  match z with
  | none => some []
  | some zd =>
      if containsSeq markerBytes zd.comment then none
      else
        match allSome zd.members with
        | some l => some l
        | none => some []

/-- Lines 147-192: the value of `obj_list` after the sniffing chain
(`some l` of payloads, or `none` for Python's `None`). Branch order is
the source's: tar, zip, `.bz2` suffix, `.gz` suffix, nothing. -/
def classifyAndExtract (filename : String) (f : FSFile) : Option (List Payload) :=
  if f.isTar then some (tarExtract f.tarEntries)
  else if f.isZip then zipObjList f.zipOpen
  else if strEndsWith filename ".bz2" then
    some (match f.bz2Data with | some d => [d] | none => [])
  else if strEndsWith filename ".gz" then
    some (match f.gzData with | some d => [d] | none => [])
  else some []

/-- An ordered string-keyed mapping, modelling a Python dict. -/
abbrev KW (V : Type) := List (String × V)

/-- `k in d` for a dict. -/
def hasKey {A : Type} (l : List (String × A)) (k : String) : Bool :=
  (l.find? (fun p => p.1 == k)).isSome

/-- `d[k]` for a dict, `none` when absent. -/
def lookupVal {A : Type} (l : List (String × A)) (k : String) : Option A :=
  (l.find? (fun p => p.1 == k)).map Prod.snd

/-- `del d[k]` for a dict. -/
def delKey {A : Type} (l : List (String × A)) (k : String) : List (String × A) :=
  l.eraseP (fun p => p.1 == k)

/-- `d[k] = v` for a dict: update in place when present, append when new. -/
def setKey {A : Type} (l : List (String × A)) (k : String) (v : A) : List (String × A) :=
  if hasKey l k then l.map (fun p => if p.1 == k then (k, v) else p)
  else l ++ [(k, v)]

/-- The keys of a dict are distinct (always true of a Python dict). -/
def nodupKeys {A : Type} (l : List (String × A)) : Prop :=
  (l.map Prod.fst).Nodup

/-- Line 139: `kwargs.pop('check_compression', True)`, with the popped
value's truthiness computed by the caller-supplied `truthy`; an absent key
yields the default `True`. Returns the truthiness and the popped dict. -/
def popCheckCompression {V : Type} (truthy : V → Bool) (kwargs : KW V) : Bool × KW V :=
  match lookupVal kwargs "check_compression" with
  | some v => (truthy v, delKey kwargs "check_compression")
  | none => (true, kwargs)

/-- The first argument of the wrapped call: a string path, or a non-string
object. `pathLike` records whether that object denotes a filesystem path
(e.g. a pathlib.Path) as opposed to, say, an open handle; the source only
ever tests `isinstance(filename, str)` (line 141), so `run` never reads
the flag. -/
inductive FileArg where
  | strPath (s : String)
  | obj (pathLike : Bool)
deriving DecidableEq

/-- What the reader capability is invoked on: the original first argument,
or a temporary file identified by the payload bytes written into it. -/
inductive RArg where
  | orig (a : FileArg)
  | tmp (data : Payload)
deriving DecidableEq

/-- Observable events of one `run`: temporary-file acquisition/release
(by a fresh id) and reader invocations with the kwargs they receive. -/
inductive Event (V : Type) where
  | acquire (n : Nat)
  | release (n : Nat)
  | callOrig (a : FileArg) (kw : KW V)
  | callTmp (data : Payload) (kw : KW V)
deriving DecidableEq

/-- Errors escaping `run`: the dispatcher's own IOError of lines 143-145,
or an error raised by the reader capability. -/
inductive RunErr (ε : Type) where
  | notFound (name : String)
  | reader (e : ε)
deriving DecidableEq

/-- `return func(filename, *args, **kwargs)`: one reader call on the
original first argument. -/
def directCall {V ε ρ : Type} (reader : RArg → KW V → Except ε ρ)
    (a : FileArg) (kw : KW V) : Except (RunErr ε) ρ × List (Event V) :=
  (Except.mapError RunErr.reader (reader (RArg.orig a) kw), [Event.callOrig a kw])

/-- Modelled from the spec: `NamedTemporaryFile` (obspy.core.util.base) is
not part of this slice; per the spec a TempResource is acquired for exactly
one reader invocation and deleted when its with-block exits, whether the
reader returned or raised. One iteration of the loop of lines 197-205 is
therefore bracketed as acquire / call-on-temp / release. -/
def tempBlock {V : Type} (kw : KW V) (n : Nat) (d : Payload) : List (Event V) :=
  [Event.acquire n, Event.callTmp d kw, Event.release n]

/-- The loop of lines 196-205 after its first iteration seeded `result`:
each remaining payload is written to a fresh temporary file, the reader is
invoked on it, and its result is merged with `result += stream`. A reader
error propagates after the temporary file's release. -/
def payloadLoop {V ε ρ : Type} (reader : RArg → KW V → Except ε ρ) (kw : KW V)
    (combine : ρ → ρ → ρ) : List Payload → Nat → ρ → Except ε ρ × List (Event V)
  | [], _, acc => (Except.ok acc, [])
  | d :: rest, n, acc =>
    match reader (RArg.tmp d) kw with
    | Except.error e => (Except.error e, tempBlock kw n d)
    | Except.ok r =>
      ((payloadLoop reader kw combine rest (n + 1) (combine acc r)).1,
       tempBlock kw n d ++ (payloadLoop reader kw combine rest (n + 1) (combine acc r)).2)

/-- Lines 194-205 when `obj_list` is a non-empty list `d :: rest`: the
first payload's reader result seeds `result` (line 203), the remaining
payloads are folded in by `payloadLoop`; a reader error propagates,
wrapped as a `RunErr.reader`, after its temporary file's release. -/
def payloadRun {V ε ρ : Type} (reader : RArg → KW V → Except ε ρ) (kw : KW V)
    (combine : ρ → ρ → ρ) (d : Payload) (rest : List Payload) :
    Except (RunErr ε) ρ × List (Event V) :=
  match reader (RArg.tmp d) kw with
  | Except.error e => (Except.error (RunErr.reader e), tempBlock kw 0 d)
  | Except.ok r =>
      (Except.mapError RunErr.reader (payloadLoop reader kw combine rest 1 r).1,
       tempBlock kw 0 d ++ (payloadLoop reader kw combine rest 1 r).2)

/-- `uncompress_file` (lines 134-209). `truthy` interprets the popped
`check_compression` value, `reader` is the wrapped `func` on the remaining
kwargs, `combine` is `+=` on reader results, `arg` the first argument,
`file` the filesystem's view of `arg` when it is a string path. Returns
the call's outcome and the event trace. -/
def run {V ε ρ : Type} (truthy : V → Bool) (reader : RArg → KW V → Except ε ρ)
    (combine : ρ → ρ → ρ) (arg : FileArg) (file : FSFile) (kwargs : KW V) :
    Except (RunErr ε) ρ × List (Event V) :=
  let cc := (popCheckCompression truthy kwargs).1
  let kw := (popCheckCompression truthy kwargs).2
  if cc = false then directCall reader arg kw
  else
    match arg with
    | FileArg.obj b => directCall reader (FileArg.obj b) kw
    | FileArg.strPath s =>
      if file.pathExists = false then (Except.error (RunErr.notFound s), [])
      else
        match classifyAndExtract s file with
        | some (d :: rest) => payloadRun reader kw combine d rest
        | _ => directCall reader (FileArg.strPath s) kw

/-- The payloads of the reader-on-temporary-file invocations of a trace. -/
def tmpPayloads {V : Type} (tr : List (Event V)) : List Payload :=
  tr.filterMap (fun e => match e with | Event.callTmp d _ => some d | _ => none)

/-- The arguments of the reader-on-original-path invocations of a trace. -/
def origCalls {V : Type} (tr : List (Event V)) : List FileArg :=
  tr.filterMap (fun e => match e with | Event.callOrig a _ => some a | _ => none)

/-- Ids of temporary resources acquired in a trace, in order. -/
def acquireIds {V : Type} (tr : List (Event V)) : List Nat :=
  tr.filterMap (fun e => match e with | Event.acquire n => some n | _ => none)

/-- Ids of temporary resources released in a trace, in order. -/
def releaseIds {V : Type} (tr : List (Event V)) : List Nat :=
  tr.filterMap (fun e => match e with | Event.release n => some n | _ => none)

/-- The trace the payload loop leaves behind: one acquire/call/release
block per payload, with consecutive fresh temporary ids from `n`. -/
def blockTrace {V : Type} (kw : KW V) : List Payload → Nat → List (Event V)
  | [], _ => []
  | d :: rest, n => tempBlock kw n d ++ blockTrace kw rest (n + 1)

/-- The kwargs dict a reader invocation received, `none` for non-call
events. -/
def eventKW {V : Type} : Event V → Option (KW V)
  | Event.acquire _ => none
  | Event.release _ => none
  | Event.callOrig _ kw => some kw
  | Event.callTmp _ kw => some kw

/-- The `keywords` dict of `deprecated_keywords` (lines 54-108): each
deprecated key maps to its replacement, or to `none` (Python `None`,
meaning the key is dropped without replacement). -/
abbrev Table := List (String × Option String)

/-- `new_keyword_appearance_counts[t]` after the loop of lines 77-80: how
many `keywords` entries have value `t` and a key present in `kwargs`. -/
def countFor {V : Type} (table : Table) (kwargs : KW V) (t : Option String) : Nat :=
  (table.filter (fun p => p.2 == t && hasKey kwargs p.1)).length

/-- The loop of lines 81-90: the first value of `keywords` (in insertion
order, duplicates included) that is non-None and was counted more than
once; `some t` means line 90 raises while examining target `t`. -/
def firstConflictTarget {V : Type} (table : Table) (kwargs : KW V) : Option String :=
  match (table.map Prod.snd).find?
      (fun t => t.isSome && decide (countFor table kwargs t > 1)) with
  | some (some t) => some t
  | _ => none

/-- `conflicting_keys` of lines 87-89: all deprecated keys whose target is
`t`, in `keywords` order. -/
def conflictingOldKeys (table : Table) (t : String) : List String :=
  (table.filter (fun p => p.2 == some t)).map Prod.fst

/-- The value interpolated for the last `%s` of `msg3` at line 90: the
name `new_key` there is the loop variable of the counting loop of lines
78-80 (the comprehension of lines 88-89 has its own scope), so it holds
the value of the LAST `keywords` entry. -/
def lastTarget (table : Table) : Option String :=
  match table.getLast? with
  | some p => p.2
  | none => none

/-- The data of the Exception raised at line 90: the old keys listed in
the message and the replacement key the message tells the user to use. -/
structure ConflictErr where
  olds : List String
  shown : Option String
deriving DecidableEq

/-- One recorded remapping action (the warnings of lines 96-102). -/
inductive Action where
  | renamed (old new : String)
  | dropped (old : String)
deriving DecidableEq

/-- The loop of lines 92-104 over `list(kwargs)`, the snapshot of the
kwargs keys taken before any mutation: a deprecated key with target None
is deleted (Dropped); one with target `nkw` has its value copied to `nkw`
and is then deleted (Renamed); other keys are untouched. The lookup-miss
fallthrough in the Renamed branch is unreachable in the source (a dict
key from the snapshot is only ever deleted by its own iteration). -/
def renameLoop {V : Type} (table : Table) :
    List String → KW V → List Action → KW V × List Action
  | [], kwargs, log => (kwargs, log)
  | kw :: rest, kwargs, log =>
    match lookupVal table kw with
    | none => renameLoop table rest kwargs log
    | some none =>
        renameLoop table rest (delKey kwargs kw) (log ++ [Action.dropped kw])
    | some (some nkw) =>
        match lookupVal kwargs kw with
        | some v =>
            renameLoop table rest (delKey (setKey kwargs nkw v) kw)
              (log ++ [Action.renamed kw nkw])
        | none => renameLoop table rest kwargs log

/-- The body of `echo_func` (lines 74-104) up to the wrapped call: detect
conflicts (raising the line-90 Exception), else rename/drop deprecated
keys and log the actions. -/
def remap {V : Type} (table : Table) (kwargs : KW V) :
    Except ConflictErr (KW V × List Action) :=
  match firstConflictTarget table kwargs with
  | some t => Except.error ⟨conflictingOldKeys table t, lastTarget table⟩
  | none => Except.ok (renameLoop table (kwargs.map Prod.fst) kwargs [])

/-- Lines 74-105 in full: remap, then invoke the wrapped function on the
rewritten kwargs; a conflict aborts before the wrapped call. -/
def echoFunc {V ρ : Type} (table : Table) (func : KW V → ρ) (kwargs : KW V) :
    Except ConflictErr ρ :=
  match remap table kwargs with
  | Except.error e => Except.error e
  | Except.ok (kw, _) => Except.ok (func kw)

/-- Follows the spec's words (section 4.3, non-conflicting case), for
comparison with `remap`: in the produced mapping every deprecated key is
absent, a non-deprecated key targeted by a present deprecated key holds
that key's value (overwriting its own), and every other key keeps its
value. Stated as the lookup of the produced mapping at a key `k`. -/
def specRemapLookup {V : Type} (table : Table) (kwargs : KW V) (k : String) : Option V :=
  if hasKey table k then none
  else
    match table.filter (fun p => p.2 == some k && hasKey kwargs p.1) with
    | [] => lookupVal kwargs k
    | p :: _ => lookupVal kwargs p.1

/-- Follows the spec's words: one action per deprecated key present in
`kwargs`, in mapping order — Dropped for a null target, Renamed otherwise. -/
def specActions {V : Type} (table : Table) (kwargs : KW V) : List Action :=
  (kwargs.map Prod.fst).filterMap (fun kw =>
    match lookupVal table kw with
    | some none => some (Action.dropped kw)
    | some (some t) => some (Action.renamed kw t)
    | none => none)

theorem hasKey_eq_isSome_lookupVal {A : Type} (l : List (String × A)) (k : String) :
    hasKey l k = (lookupVal l k).isSome := by
  unfold hasKey lookupVal
  cases l.find? (fun p => p.1 == k) <;> rfl

theorem hasKey_iff_mem_keys {A : Type} (l : List (String × A)) (k : String) :
    hasKey l k = true ↔ k ∈ l.map Prod.fst := by
  unfold hasKey
  rw [List.find?_isSome]
  constructor
  · rintro ⟨x, hx, hk⟩
    exact List.mem_map.mpr ⟨x, hx, by simpa using hk⟩
  · intro h
    rcases List.mem_map.mp h with ⟨x, hx, hk⟩
    exact ⟨x, hx, by simp [hk]⟩

theorem lookupVal_eq_none_iff {A : Type} (l : List (String × A)) (k : String) :
    lookupVal l k = none ↔ hasKey l k = false := by
  rw [hasKey_eq_isSome_lookupVal]
  cases lookupVal l k <;> simp

theorem mem_of_lookupVal_eq_some {A : Type} {l : List (String × A)} {k : String} {v : A}
    (h : lookupVal l k = some v) : (k, v) ∈ l := by
  unfold lookupVal at h
  cases hf : l.find? (fun p => p.1 == k) with
  | none => rw [hf] at h; simp at h
  | some p =>
    rw [hf] at h
    have hp := List.find?_some hf
    have hm := List.mem_of_find?_eq_some hf
    have h1 : p.1 = k := by simpa using hp
    have h2 : p.2 = v := by simpa using h
    have : p = (k, v) := Prod.ext h1 h2
    rwa [this] at hm

theorem exists_lookupVal_of_hasKey {A : Type} {l : List (String × A)} {k : String}
    (h : hasKey l k = true) : ∃ v, lookupVal l k = some v := by
  rw [hasKey_eq_isSome_lookupVal] at h
  cases hv : lookupVal l k with
  | none => rw [hv] at h; simp at h
  | some v => exact ⟨v, rfl⟩

theorem lookupVal_of_mem_nodup {A : Type} {l : List (String × A)} {k : String} {v : A}
    (hnd : nodupKeys l) (h : (k, v) ∈ l) : lookupVal l k = some v := by
  induction l with
  | nil => simp at h
  | cons p rest ih =>
    unfold nodupKeys at hnd
    rw [List.map_cons, List.nodup_cons] at hnd
    rcases List.mem_cons.mp h with h0 | h0
    · rw [← h0]
      simp [lookupVal, List.find?]
    · have hk : k ∈ rest.map Prod.fst := List.mem_map.mpr ⟨(k, v), h0, rfl⟩
      have hne : p.1 ≠ k := fun he => hnd.1 (he ▸ hk)
      have : (p.1 == k) = false := by simp [hne]
      simp only [lookupVal, List.find?, this]
      exact ih hnd.2 h0

theorem lookupVal_delKey_self {A : Type} {l : List (String × A)} {k : String}
    (hnd : nodupKeys l) : lookupVal (delKey l k) k = none := by
  induction l with
  | nil => rfl
  | cons p rest ih =>
    unfold nodupKeys at hnd
    rw [List.map_cons, List.nodup_cons] at hnd
    by_cases hp : (p.1 == k) = true
    · simp only [delKey, List.eraseP_cons, hp, cond_true]
      rw [lookupVal_eq_none_iff]
      cases hk : hasKey rest k
      · rfl
      · have : k ∈ rest.map Prod.fst := (hasKey_iff_mem_keys rest k).mp hk
        have hpk : p.1 = k := by simpa using hp
        exact absurd (hpk ▸ this) hnd.1
    · have hp2 : (p.1 == k) = false := by simpa using hp
      simp only [delKey, List.eraseP_cons, hp2, cond_false]
      simp only [lookupVal, List.find?, hp2]
      exact ih hnd.2

theorem lookupVal_delKey_other {A : Type} (l : List (String × A)) {k j : String}
    (hne : k ≠ j) : lookupVal (delKey l j) k = lookupVal l k := by
  induction l with
  | nil => rfl
  | cons p rest ih =>
    by_cases hp : (p.1 == j) = true
    · simp only [delKey, List.eraseP_cons, hp, cond_true]
      have hpj : p.1 = j := by simpa using hp
      have hk : (p.1 == k) = false := by
        rw [hpj]
        simp only [beq_eq_false_iff_ne]
        exact fun h => hne h.symm
      simp only [lookupVal, List.find?, hk]
    · have hp2 : (p.1 == j) = false := by simpa using hp
      simp only [delKey, List.eraseP_cons, hp2, cond_false]
      simp only [lookupVal, List.find?]
      cases hpk : (p.1 == k) with
      | true => simp [hpk]
      | false => simp only [hpk]; exact ih

theorem lookupVal_delKey_of_none {A : Type} {l : List (String × A)} {k : String}
    (j : String) (h : lookupVal l k = none) : lookupVal (delKey l j) k = none := by
  rw [lookupVal_eq_none_iff] at h ⊢
  cases hk : hasKey (delKey l j) k
  · rfl
  · have hm := (hasKey_iff_mem_keys _ k).mp hk
    have hsub : List.Sublist ((delKey l j).map Prod.fst) (l.map Prod.fst) :=
      List.Sublist.map Prod.fst (List.eraseP_sublist l)
    have : k ∈ l.map Prod.fst := hsub.subset hm
    rw [← hasKey_iff_mem_keys] at this
    rw [h] at this
    exact absurd this Bool.false_ne_true

theorem nodupKeys_delKey {A : Type} {l : List (String × A)} (j : String)
    (hnd : nodupKeys l) : nodupKeys (delKey l j) := by
  unfold nodupKeys at hnd ⊢
  exact List.Nodup.sublist (List.Sublist.map Prod.fst (List.eraseP_sublist l)) hnd

theorem hasKey_delKey_other {A : Type} (l : List (String × A)) {k j : String}
    (hne : k ≠ j) : hasKey (delKey l j) k = hasKey l k := by
  rw [hasKey_eq_isSome_lookupVal, hasKey_eq_isSome_lookupVal, lookupVal_delKey_other l hne]

theorem lookupVal_cons {A : Type} (p : String × A) (rest : List (String × A)) (k : String) :
    lookupVal (p :: rest) k = if (p.1 == k) = true then some p.2 else lookupVal rest k := by
  simp only [lookupVal, List.find?_cons]
  cases hp : (p.1 == k) <;> simp [hp]

theorem hasKey_cons {A : Type} (p : String × A) (rest : List (String × A)) (k : String) :
    hasKey (p :: rest) k = (p.1 == k || hasKey rest k) := by
  rw [hasKey_eq_isSome_lookupVal, lookupVal_cons]
  cases hp : (p.1 == k) <;> simp [hp, hasKey_eq_isSome_lookupVal]

theorem lookupVal_mapset_of_hasKey {A : Type} {l : List (String × A)} {t : String}
    (v : A) (h : hasKey l t = true) :
    lookupVal (l.map (fun p => if p.1 == t then (t, v) else p)) t = some v := by
  induction l with
  | nil => simp [hasKey] at h
  | cons p rest ih =>
    by_cases hp : (p.1 == t) = true
    · simp only [List.map_cons, hp, if_true]
      rw [lookupVal_cons]
      simp
    · have hp2 : (p.1 == t) = false := by simpa using hp
      rw [hasKey_cons, hp2] at h
      simp only [Bool.false_or] at h
      simp only [List.map_cons, hp2, Bool.false_eq_true, if_false]
      rw [lookupVal_cons]
      simp only [hp2, Bool.false_eq_true, if_false]
      exact ih h

theorem lookupVal_mapset_other {A : Type} (l : List (String × A)) {t k : String}
    (v : A) (hk : k ≠ t) :
    lookupVal (l.map (fun p => if p.1 == t then (t, v) else p)) k = lookupVal l k := by
  induction l with
  | nil => rfl
  | cons p rest ih =>
    by_cases hp : (p.1 == t) = true
    · have hpt : p.1 = t := by simpa using hp
      have ht : (t == k) = false := by
        simp only [beq_eq_false_iff_ne]
        exact fun h => hk h.symm
      have hpk : (p.1 == k) = false := by rw [hpt]; exact ht
      simp only [List.map_cons, hp, if_true]
      rw [lookupVal_cons, lookupVal_cons]
      simp only [ht, hpk, Bool.false_eq_true, if_false]
      exact ih
    · have hp2 : (p.1 == t) = false := by simpa using hp
      simp only [List.map_cons, hp2, Bool.false_eq_true, if_false]
      rw [lookupVal_cons, lookupVal_cons]
      cases hpk : (p.1 == k) with
      | true => simp only [hpk, if_true]
      | false =>
        simp only [hpk, Bool.false_eq_true, if_false]
        exact ih

theorem lookupVal_append_single_self {A : Type} (l : List (String × A)) (t : String)
    (v : A) (h : hasKey l t = false) : lookupVal (l ++ [(t, v)]) t = some v := by
  induction l with
  | nil => simp [lookupVal, List.find?]
  | cons p rest ih =>
    rw [hasKey_cons] at h
    rcases Bool.or_eq_false_iff.mp h with ⟨h1, h2⟩
    rw [List.cons_append, lookupVal_cons]
    simp only [h1, Bool.false_eq_true, if_false]
    exact ih h2

theorem lookupVal_append_single_other {A : Type} (l : List (String × A)) {t k : String}
    (v : A) (hk : k ≠ t) : lookupVal (l ++ [(t, v)]) k = lookupVal l k := by
  induction l with
  | nil =>
    have ht : (t == k) = false := by
      simp only [beq_eq_false_iff_ne]
      exact fun h => hk h.symm
    simp [lookupVal, List.find?, ht]
  | cons p rest ih =>
    rw [List.cons_append, lookupVal_cons, lookupVal_cons]
    cases hpk : (p.1 == k) <;> simp [hpk, ih]

theorem lookupVal_setKey_self {A : Type} (l : List (String × A)) (t : String) (v : A) :
    lookupVal (setKey l t v) t = some v := by
  by_cases h : hasKey l t = true
  · simp only [setKey, h, if_true]
    exact lookupVal_mapset_of_hasKey v h
  · have h2 : hasKey l t = false := by simpa using h
    simp only [setKey, h2, Bool.false_eq_true, if_false]
    exact lookupVal_append_single_self l t v h2

theorem lookupVal_setKey_other {A : Type} (l : List (String × A)) {t k : String}
    (v : A) (hk : k ≠ t) : lookupVal (setKey l t v) k = lookupVal l k := by
  by_cases h : hasKey l t = true
  · simp only [setKey, h, if_true]
    exact lookupVal_mapset_other l v hk
  · have h2 : hasKey l t = false := by simpa using h
    simp only [setKey, h2, Bool.false_eq_true, if_false]
    exact lookupVal_append_single_other l v hk

theorem hasKey_setKey_of_hasKey {A : Type} {l : List (String × A)} {t j : String}
    (v : A) (h : hasKey l j = true) : hasKey (setKey l t v) j = true := by
  by_cases hj : j = t
  · rw [hj, hasKey_eq_isSome_lookupVal, lookupVal_setKey_self]
    rfl
  · rw [hasKey_eq_isSome_lookupVal, lookupVal_setKey_other l v hj,
      ← hasKey_eq_isSome_lookupVal]
    exact h

theorem tmpPayloads_append {V : Type} (l1 l2 : List (Event V)) :
    tmpPayloads (l1 ++ l2) = tmpPayloads l1 ++ tmpPayloads l2 := by
  unfold tmpPayloads
  exact List.filterMap_append l1 l2 _

theorem origCalls_append {V : Type} (l1 l2 : List (Event V)) :
    origCalls (l1 ++ l2) = origCalls l1 ++ origCalls l2 := by
  unfold origCalls
  exact List.filterMap_append l1 l2 _

theorem acquireIds_append {V : Type} (l1 l2 : List (Event V)) :
    acquireIds (l1 ++ l2) = acquireIds l1 ++ acquireIds l2 := by
  unfold acquireIds
  exact List.filterMap_append l1 l2 _

theorem releaseIds_append {V : Type} (l1 l2 : List (Event V)) :
    releaseIds (l1 ++ l2) = releaseIds l1 ++ releaseIds l2 := by
  unfold releaseIds
  exact List.filterMap_append l1 l2 _

theorem tmpPayloads_blockTrace {V : Type} (kw : KW V) (ps : List Payload) :
    ∀ n, tmpPayloads (blockTrace kw ps n) = ps := by
  induction ps with
  | nil => intro n; rfl
  | cons d rest ih =>
    intro n
    rw [blockTrace, tmpPayloads_append, ih]
    rfl

theorem origCalls_blockTrace {V : Type} (kw : KW V) (ps : List Payload) :
    ∀ n, origCalls (blockTrace kw ps n) = [] := by
  induction ps with
  | nil => intro n; rfl
  | cons d rest ih =>
    intro n
    rw [blockTrace, origCalls_append, ih]
    rfl

theorem acq_rel_blockTrace {V : Type} (kw : KW V) (ps : List Payload) :
    ∀ n, acquireIds (blockTrace kw ps n) = releaseIds (blockTrace kw ps n) := by
  induction ps with
  | nil => intro n; rfl
  | cons d rest ih =>
    intro n
    rw [blockTrace, acquireIds_append, releaseIds_append, ih]
    rfl

theorem eventKW_blockTrace {V : Type} (kw : KW V) (ps : List Payload) :
    ∀ n e, e ∈ blockTrace kw ps n → eventKW e = none ∨ eventKW e = some kw := by
  induction ps with
  | nil => intro n e h; simp [blockTrace] at h
  | cons d rest ih =>
    intro n e h
    rw [blockTrace] at h
    rcases List.mem_append.mp h with h0 | h0
    · simp only [tempBlock, List.mem_cons, List.mem_singleton, List.not_mem_nil,
        or_false] at h0
      rcases h0 with h1 | h1 | h1 <;> rw [h1] <;> simp [eventKW]
    · exact ih (n + 1) e h0

theorem callTmp_mem_blockTrace {V : Type} {kw kw2 : KW V} {ps : List Payload}
    {n : Nat} {d2 : Payload} (h : Event.callTmp d2 kw2 ∈ blockTrace kw ps n) :
    d2 ∈ ps := by
  have : d2 ∈ tmpPayloads (blockTrace kw ps n) :=
    List.mem_filterMap.mpr ⟨Event.callTmp d2 kw2, h, rfl⟩
  rwa [tmpPayloads_blockTrace] at this

theorem payloadLoop_all_ok {V ε ρ : Type} {reader : RArg → KW V → Except ε ρ}
    {kw : KW V} (combine : ρ → ρ → ρ) (g : Payload → ρ)
    (hg : ∀ p, reader (RArg.tmp p) kw = Except.ok (g p)) :
    ∀ (ps : List Payload) (n : Nat) (acc : ρ),
      payloadLoop reader kw combine ps n acc
        = (Except.ok (ps.foldl (fun a p => combine a (g p)) acc), blockTrace kw ps n) := by
  intro ps
  induction ps with
  | nil => intro n acc; rfl
  | cons d rest ih =>
    intro n acc
    simp only [payloadLoop, hg d, ih, List.foldl_cons, blockTrace]

theorem payloadLoop_error {V ε ρ : Type} {reader : RArg → KW V → Except ε ρ}
    {kw : KW V} {combine : ρ → ρ → ρ} :
    ∀ (ps : List Payload) (n : Nat) (acc : ρ) (e : ε),
      (payloadLoop reader kw combine ps n acc).1 = Except.error e →
      ∃ d ∈ ps, reader (RArg.tmp d) kw = Except.error e := by
  intro ps
  induction ps with
  | nil => intro n acc e h; simp [payloadLoop] at h
  | cons d rest ih =>
    intro n acc e h
    cases hr : reader (RArg.tmp d) kw with
    | error e0 =>
      simp only [payloadLoop, hr] at h
      exact ⟨d, List.mem_cons_self d rest, by rw [hr, h]⟩
    | ok r =>
      simp only [payloadLoop, hr] at h
      rcases ih (n + 1) (combine acc r) e h with ⟨d2, hd2, hrd⟩
      exact ⟨d2, List.mem_cons_of_mem d hd2, hrd⟩

theorem acq_rel_payloadLoop {V ε ρ : Type} {reader : RArg → KW V → Except ε ρ}
    {kw : KW V} {combine : ρ → ρ → ρ} :
    ∀ (ps : List Payload) (n : Nat) (acc : ρ),
      acquireIds (payloadLoop reader kw combine ps n acc).2
        = releaseIds (payloadLoop reader kw combine ps n acc).2 := by
  intro ps
  induction ps with
  | nil => intro n acc; rfl
  | cons d rest ih =>
    intro n acc
    cases hr : reader (RArg.tmp d) kw with
    | error e0 =>
      simp only [payloadLoop, hr]
      rfl
    | ok r =>
      simp only [payloadLoop, hr]
      rw [acquireIds_append, releaseIds_append, ih]
      rfl

theorem eventKW_payloadLoop {V ε ρ : Type} {reader : RArg → KW V → Except ε ρ}
    {kw : KW V} {combine : ρ → ρ → ρ} :
    ∀ (ps : List Payload) (n : Nat) (acc : ρ) (e : Event V),
      e ∈ (payloadLoop reader kw combine ps n acc).2 →
      eventKW e = none ∨ eventKW e = some kw := by
  intro ps
  induction ps with
  | nil => intro n acc e h; simp [payloadLoop] at h
  | cons d rest ih =>
    intro n acc e h
    cases hr : reader (RArg.tmp d) kw with
    | error e0 =>
      simp only [payloadLoop, hr] at h
      simp only [tempBlock, List.mem_cons, List.mem_singleton, List.not_mem_nil,
        or_false] at h
      rcases h with h1 | h1 | h1 <;> rw [h1] <;> simp [eventKW]
    | ok r =>
      simp only [payloadLoop, hr] at h
      rcases List.mem_append.mp h with h0 | h0
      · simp only [tempBlock, List.mem_cons, List.mem_singleton, List.not_mem_nil,
          or_false] at h0
        rcases h0 with h1 | h1 | h1 <;> rw [h1] <;> simp [eventKW]
      · exact ih (n + 1) (combine acc r) e h0

theorem callTmp_mem_payloadLoop {V ε ρ : Type} {reader : RArg → KW V → Except ε ρ}
    {kw kw2 : KW V} {combine : ρ → ρ → ρ} :
    ∀ (ps : List Payload) (n : Nat) (acc : ρ) (d2 : Payload),
      Event.callTmp d2 kw2 ∈ (payloadLoop reader kw combine ps n acc).2 →
      d2 ∈ ps := by
  intro ps
  induction ps with
  | nil => intro n acc d2 h; simp [payloadLoop] at h
  | cons d rest ih =>
    intro n acc d2 h
    cases hr : reader (RArg.tmp d) kw with
    | error e0 =>
      simp only [payloadLoop, hr] at h
      simp only [tempBlock, List.mem_cons, List.mem_singleton, List.not_mem_nil,
        or_false] at h
      rcases h with h1 | h1 | h1
      · exact absurd h1 (by simp)
      · injection h1 with h2 _
        rw [h2]
        exact List.mem_cons_self d rest
      · exact absurd h1 (by simp)
    | ok r =>
      simp only [payloadLoop, hr] at h
      rcases List.mem_append.mp h with h0 | h0
      · simp only [tempBlock, List.mem_cons, List.mem_singleton, List.not_mem_nil,
          or_false] at h0
        rcases h0 with h1 | h1 | h1
        · exact absurd h1 (by simp)
        · injection h1 with h2 _
          rw [h2]
          exact List.mem_cons_self d rest
        · exact absurd h1 (by simp)
      · exact List.mem_cons_of_mem d (ih (n + 1) (combine acc r) d2 h0)

theorem tarExtract_all_regular (members : List Payload) (h : ∀ p ∈ members, p ≠ []) :
    tarExtract (members.map TarEntry.regular) = members := by
  induction members with
  | nil => rfl
  | cons d rest ih =>
    have hd : d ≠ [] := h d (List.mem_cons_self d rest)
    have hde : d.isEmpty = false := by
      cases d with
      | nil => exact absurd rfl hd
      | cons b bs => rfl
    rw [List.map_cons, tarExtract, hde]
    simp only [Bool.false_eq_true, if_false]
    rw [ih (fun p hp => h p (List.mem_cons_of_mem d hp))]

theorem mem_tarExtract_ne_nil {entries : List TarEntry} {p : Payload}
    (h : p ∈ tarExtract entries) : p ≠ [] := by
  induction entries with
  | nil => simp [tarExtract] at h
  | cons en rest ih =>
    cases en with
    | regular d =>
      by_cases hd : d.isEmpty = true
      · rw [tarExtract, hd] at h
        simp only [if_true] at h
        exact ih h
      · have hd2 : d.isEmpty = false := by simpa using hd
        rw [tarExtract, hd2] at h
        simp only [Bool.false_eq_true, if_false] at h
        rcases List.mem_cons.mp h with h0 | h0
        · rw [h0]
          cases d with
          | nil => simp at hd2
          | cons b bs => simp
        · exact ih h0
    | special =>
      rw [tarExtract] at h
      exact ih h
    | failure =>
      rw [tarExtract] at h
      simp at h

theorem run_shape {V ε ρ : Type} (truthy : V → Bool) (reader : RArg → KW V → Except ε ρ)
    (combine : ρ → ρ → ρ) (arg : FileArg) (file : FSFile) (kwargs : KW V) :
    run truthy reader combine arg file kwargs
        = directCall reader arg (popCheckCompression truthy kwargs).2 ∨
    (∃ s, arg = FileArg.strPath s ∧
        run truthy reader combine arg file kwargs
          = (Except.error (RunErr.notFound s), [])) ∨
    (∃ s d rest, arg = FileArg.strPath s ∧
        classifyAndExtract s file = some (d :: rest) ∧
        run truthy reader combine arg file kwargs
          = payloadRun reader (popCheckCompression truthy kwargs).2 combine d rest) := by
  unfold run
  by_cases hcc : (popCheckCompression truthy kwargs).1 = false
  · left
    simp [hcc]
  · cases arg with
    | obj b =>
      left
      simp [hcc]
    | strPath s =>
      by_cases hex : file.pathExists = false
      · right; left
        exact ⟨s, rfl, by simp [hcc, hex]⟩
      · cases hcl : classifyAndExtract s file with
        | none => left; simp [hcc, hex, hcl]
        | some l =>
          cases l with
          | nil => left; simp [hcc, hex, hcl]
          | cons d rest =>
            right; right
            exact ⟨s, d, rest, rfl, hcl, by simp [hcc, hex, hcl]⟩

theorem nodupKeys_setKey {A : Type} {l : List (String × A)} (t : String) (v : A)
    (hnd : nodupKeys l) : nodupKeys (setKey l t v) := by
  by_cases h : hasKey l t = true
  · simp only [setKey, h, if_true]
    unfold nodupKeys at hnd ⊢
    rw [List.map_map]
    have hc : ∀ p ∈ l, (Prod.fst ∘ fun p => if p.1 == t then (t, v) else p) p = Prod.fst p := by
      intro p _
      by_cases hp : (p.1 == t) = true
      · have hpt : p.1 = t := by simpa using hp
        simp only [Function.comp_apply, hp, if_true]
        exact hpt.symm
      · have hp2 : (p.1 == t) = false := by simpa using hp
        simp only [Function.comp_apply, hp2, Bool.false_eq_true, if_false]
    rwa [List.map_congr_left hc]
  · have h2 : hasKey l t = false := by simpa using h
    simp only [setKey, h2, Bool.false_eq_true, if_false]
    unfold nodupKeys at hnd ⊢
    rw [List.map_append, List.nodup_append]
    refine ⟨hnd, List.nodup_singleton t, ?_⟩
    intro a ha hb
    simp only [List.map_cons, List.map_nil, List.mem_singleton] at hb
    rw [hb] at ha
    rw [← hasKey_iff_mem_keys] at ha
    rw [ha] at h2
    exact absurd h2 (by simp)


/-- C8: with check_compression truthy (or defaulted) and a string path that
does not exist on the filesystem, `run` raises the not-found IOError of
lines 143-145 with an empty event trace: no format probing happened and the
reader capability was never invoked; the error is surfaced as-is. -/
theorem missing_path_raises_before_probing {V ε ρ : Type} (truthy : V → Bool)
    (reader : RArg → KW V → Except ε ρ) (combine : ρ → ρ → ρ) (s : String)
    (file : FSFile) (kwargs : KW V)
    (hcc : (popCheckCompression truthy kwargs).1 = true)
    (hex : file.pathExists = false) :
    run truthy reader combine (FileArg.strPath s) file kwargs
      = (Except.error (RunErr.notFound s), []) := by
  unfold run
  simp [hcc, hex]

theorem missing_path_raises_before_probing_app :
    run (fun b : Bool => b) (fun _ _ => (Except.ok 0 : Except Unit Nat))
      (fun a b => a + b) (FileArg.strPath "x")
      ⟨false, false, false, [], none, none, none⟩ []
      = (Except.error (RunErr.notFound "x"), []) :=
  missing_path_raises_before_probing (fun b : Bool => b)
    (fun _ _ => (Except.ok 0 : Except Unit Nat)) (fun a b => a + b) "x"
    ⟨false, false, false, [], none, none, none⟩ [] rfl rfl

/-- C4 counterexample: a path-like but non-string first argument (modelled
by `FileArg.obj true`, e.g. a pathlib.Path) with check_compression at its
default does NOT undergo sniffing: on a non-existent path `run` succeeds
with a single direct reader call, where sniffing would have raised the
not-found error. The claim that every path-like first argument is sniffed
is therefore false: the source tests `isinstance(filename, str)` only. -/
theorem pathlike_object_bypasses_sniffing :
    run (fun b : Bool => b) (fun _ _ => (Except.ok 7 : Except Unit Nat))
      (fun a b => a + b) (FileArg.obj true)
      ⟨false, false, false, [], none, none, none⟩ []
      = (Except.ok 7, [Event.callOrig (FileArg.obj true) []]) := rfl

/-- C4 (amended): only a string first argument is ever sniffed; every
non-string first argument — path-like (`FileArg.obj true`) or not
(`FileArg.obj false`) — goes straight to the reader with the popped
kwargs, whatever check_compression and the filesystem say. -/
theorem nonstring_arg_direct_call {V ε ρ : Type} (truthy : V → Bool)
    (reader : RArg → KW V → Except ε ρ) (combine : ρ → ρ → ρ) (b : Bool)
    (file : FSFile) (kwargs : KW V) :
    run truthy reader combine (FileArg.obj b) file kwargs
      = directCall reader (FileArg.obj b) (popCheckCompression truthy kwargs).2 := by
  unfold run
  by_cases hcc : (popCheckCompression truthy kwargs).1 = false <;> simp [hcc]

/-- C6: for a zip archive whose comment contains the opt-out marker, `run`
makes exactly one reader invocation, on the original path, acquires no
temporary file, and returns that single result (it equals the direct
call). -/
theorem zip_marker_single_direct_call {V ε ρ : Type} (truthy : V → Bool)
    (reader : RArg → KW V → Except ε ρ) (combine : ρ → ρ → ρ) (s : String)
    (file : FSFile) (kwargs : KW V) (zd : ZipData)
    (hcc : (popCheckCompression truthy kwargs).1 = true)
    (hex : file.pathExists = true)
    (htar : file.isTar = false)
    (hzip : file.isZip = true)
    (hopen : file.zipOpen = some zd)
    (hmark : containsSeq markerBytes zd.comment = true) :
    run truthy reader combine (FileArg.strPath s) file kwargs
      = directCall reader (FileArg.strPath s) (popCheckCompression truthy kwargs).2 ∧
    acquireIds (run truthy reader combine (FileArg.strPath s) file kwargs).2 = [] ∧
    origCalls (run truthy reader combine (FileArg.strPath s) file kwargs).2
      = [FileArg.strPath s] := by
  have hcl : classifyAndExtract s file = none := by
    simp [classifyAndExtract, htar, hzip, zipObjList, hopen, hmark]
  have hrun : run truthy reader combine (FileArg.strPath s) file kwargs
      = directCall reader (FileArg.strPath s) (popCheckCompression truthy kwargs).2 := by
    unfold run
    simp [hcc, hex, hcl]
  refine ⟨hrun, ?_, ?_⟩ <;> rw [hrun] <;> rfl

theorem zip_marker_single_direct_call_app :
    run (fun b : Bool => b) (fun _ _ => (Except.ok 5 : Except Unit Nat))
      (fun a b => a + b) (FileArg.strPath "p.zip")
      ⟨true, false, true, [], some ⟨markerBytes, [some [1]]⟩, none, none⟩ []
      = directCall (fun _ _ => (Except.ok 5 : Except Unit Nat))
          (FileArg.strPath "p.zip") [] ∧
    acquireIds (run (fun b : Bool => b) (fun _ _ => (Except.ok 5 : Except Unit Nat))
      (fun a b => a + b) (FileArg.strPath "p.zip")
      ⟨true, false, true, [], some ⟨markerBytes, [some [1]]⟩, none, none⟩ []).2 = [] ∧
    origCalls (run (fun b : Bool => b) (fun _ _ => (Except.ok 5 : Except Unit Nat))
      (fun a b => a + b) (FileArg.strPath "p.zip")
      ⟨true, false, true, [], some ⟨markerBytes, [some [1]]⟩, none, none⟩ []).2
      = [FileArg.strPath "p.zip"] :=
  zip_marker_single_direct_call (fun b : Bool => b)
    (fun _ _ => (Except.ok 5 : Except Unit Nat)) (fun a b => a + b) "p.zip"
    ⟨true, false, true, [], some ⟨markerBytes, [some [1]]⟩, none, none⟩ []
    ⟨markerBytes, [some [1]]⟩ rfl rfl rfl rfl rfl (by decide)

/-- C7 counterexample: a tar archive whose extraction fails after one
non-empty member has been read does NOT fall back to the original path:
`except: pass` keeps the payloads already appended to obj_list, so the
reader runs once on a temporary file holding that partial payload and never
on the original path — refuting "extraction failure produces zero payloads
and one reader call on the original path". -/
theorem tar_partial_extraction_not_fallback :
    run (fun b : Bool => b)
      (fun a _ => match a with
        | RArg.orig _ => (Except.ok 100 : Except Unit Nat)
        | RArg.tmp d => Except.ok d.length)
      (fun a b => a + b) (FileArg.strPath "f.tar")
      ⟨true, true, false, [TarEntry.regular [1], TarEntry.failure], none, none, none⟩ []
      = (Except.ok 1, [Event.acquire 0, Event.callTmp [1] [], Event.release 0]) := rfl

/-- C7 (amended): extraction errors are swallowed, and `run` falls back to
one direct reader call on the original path exactly when extraction left
zero payloads — which holds for every corrupt zip (open failure or member
read failure without the marker), invalid `.bz2`, invalid `.gz`, and tar
whose failure precedes the first retained member; a tar failing after k ≥ 1
retained members instead processes those k payloads (counterexample). -/
theorem corrupt_archive_zero_payload_fallback {V ε ρ : Type} (truthy : V → Bool)
    (reader : RArg → KW V → Except ε ρ) (combine : ρ → ρ → ρ) (s : String)
    (file : FSFile) (kwargs : KW V) :
    ((popCheckCompression truthy kwargs).1 = true → file.pathExists = true →
      classifyAndExtract s file = some [] →
      run truthy reader combine (FileArg.strPath s) file kwargs
        = directCall reader (FileArg.strPath s) (popCheckCompression truthy kwargs).2 ∧
      origCalls (run truthy reader combine (FileArg.strPath s) file kwargs).2
        = [FileArg.strPath s] ∧
      tmpPayloads (run truthy reader combine (FileArg.strPath s) file kwargs).2 = []) ∧
    (file.isTar = false → file.isZip = true → file.zipOpen = none →
      classifyAndExtract s file = some []) ∧
    (∀ zd, file.isTar = false → file.isZip = true → file.zipOpen = some zd →
      containsSeq markerBytes zd.comment = false → allSome zd.members = none →
      classifyAndExtract s file = some []) ∧
    (file.isTar = false → file.isZip = false → strEndsWith s ".bz2" = true →
      file.bz2Data = none → classifyAndExtract s file = some []) ∧
    (file.isTar = false → file.isZip = false → strEndsWith s ".bz2" = false →
      strEndsWith s ".gz" = true → file.gzData = none →
      classifyAndExtract s file = some []) ∧
    (∀ rest, file.isTar = true → file.tarEntries = TarEntry.failure :: rest →
      classifyAndExtract s file = some []) := by
  refine ⟨?_, ?_, ?_, ?_, ?_, ?_⟩
  · intro hcc hex hcl
    have hrun : run truthy reader combine (FileArg.strPath s) file kwargs
        = directCall reader (FileArg.strPath s) (popCheckCompression truthy kwargs).2 := by
      unfold run
      simp [hcc, hex, hcl]
    refine ⟨hrun, ?_, ?_⟩ <;> rw [hrun] <;> rfl
  · intro htar hzip hopen
    simp [classifyAndExtract, htar, hzip, zipObjList, hopen]
  · intro zd htar hzip hopen hmark hread
    simp [classifyAndExtract, htar, hzip, zipObjList, hopen, hmark, hread]
  · intro htar hzip hbz hcon
    simp [classifyAndExtract, htar, hzip, hbz, hcon]
  · intro htar hzip hbz hgz hcon
    simp [classifyAndExtract, htar, hzip, hbz, hgz, hcon]
  · intro rest htar hfail
    simp [classifyAndExtract, htar, hfail, tarExtract]

theorem corrupt_archive_zero_payload_fallback_app :
    run (fun b : Bool => b) (fun _ _ => (Except.ok 4 : Except Unit Nat))
      (fun a b => a + b) (FileArg.strPath "f.gz")
      ⟨true, false, false, [], none, none, none⟩ []
      = directCall (fun _ _ => (Except.ok 4 : Except Unit Nat))
          (FileArg.strPath "f.gz") [] ∧
    classifyAndExtract "f.gz" ⟨true, false, false, [], none, none, none⟩ = some [] := by
  have h := corrupt_archive_zero_payload_fallback (fun b : Bool => b)
    (fun _ _ => (Except.ok 4 : Except Unit Nat)) (fun a b => a + b) "f.gz"
    ⟨true, false, false, [], none, none, none⟩ []
  have hcl : classifyAndExtract "f.gz" ⟨true, false, false, [], none, none, none⟩
      = some [] := h.2.2.2.2.1 rfl rfl rfl rfl rfl
  exact ⟨(h.1 rfl rfl hcl).1, hcl⟩

/-- C1 counterexample: a zip archive without the opt-out marker holding one
member whose content is zero bytes DOES result in a reader invocation on a
temporary file holding empty bytes (the `callTmp []` event): the skip-empty
guard of lines 160-161 exists only in the tar branch, not in the zip
branch (line 174). -/
theorem zip_empty_member_reaches_reader :
    run (fun b : Bool => b)
      (fun a _ => match a with
        | RArg.orig _ => (Except.ok 100 : Except Unit Nat)
        | RArg.tmp d => Except.ok d.length)
      (fun a b => a + b) (FileArg.strPath "f.zip")
      ⟨true, false, true, [], some ⟨[], [some []]⟩, none, none⟩ []
      = (Except.ok 0, [Event.acquire 0, Event.callTmp [] [], Event.release 0]) := rfl

/-- C1 (amended): the non-emptiness invariant holds for tar archives: when
the input is recognised as a tar file, every reader-on-temporary-file
invocation in the trace of `run` carries non-empty bytes (empty tar members
are skipped); zip members are not filtered (see the counterexample). -/
theorem tar_payloads_nonempty {V ε ρ : Type} (truthy : V → Bool)
    (reader : RArg → KW V → Except ε ρ) (combine : ρ → ρ → ρ) (arg : FileArg)
    (file : FSFile) (kwargs : KW V) (htar : file.isTar = true) :
    ∀ d kw2, Event.callTmp d kw2 ∈ (run truthy reader combine arg file kwargs).2 →
      d ≠ [] := by
  intro d kw2 hmem
  rcases run_shape truthy reader combine arg file kwargs with
    h | ⟨s, harg, h⟩ | ⟨s, d0, rest, harg, hcl, h⟩
  · rw [h] at hmem
    simp [directCall] at hmem
  · rw [h] at hmem
    simp at hmem
  · rw [h] at hmem
    have hcl2 : classifyAndExtract s file = some (tarExtract file.tarEntries) := by
      simp [classifyAndExtract, htar]
    rw [hcl2] at hcl
    have htars : tarExtract file.tarEntries = d0 :: rest := by
      injection hcl
    unfold payloadRun at hmem
    cases hr : reader (RArg.tmp d0) (popCheckCompression truthy kwargs).2 with
    | error e0 =>
      simp only [hr] at hmem
      simp only [tempBlock, List.mem_cons, List.mem_singleton, List.not_mem_nil,
        or_false] at hmem
      rcases hmem with h1 | h1 | h1
      · exact absurd h1 (by simp)
      · injection h1 with h2 _
        rw [h2]
        exact mem_tarExtract_ne_nil (htars ▸ List.mem_cons_self d0 rest)
      · exact absurd h1 (by simp)
    | ok r =>
      simp only [hr] at hmem
      rcases List.mem_append.mp hmem with h0 | h0
      · simp only [tempBlock, List.mem_cons, List.mem_singleton, List.not_mem_nil,
          or_false] at h0
        rcases h0 with h1 | h1 | h1
        · exact absurd h1 (by simp)
        · injection h1 with h2 _
          rw [h2]
          exact mem_tarExtract_ne_nil (htars ▸ List.mem_cons_self d0 rest)
        · exact absurd h1 (by simp)
      · have hdrest : d ∈ rest :=
          callTmp_mem_payloadLoop rest 1 r d h0
        have : d ∈ tarExtract file.tarEntries := by
          rw [htars]
          exact List.mem_cons_of_mem d0 hdrest
        exact mem_tarExtract_ne_nil this

theorem tar_payloads_nonempty_app : ([1] : Payload) ≠ [] :=
  tar_payloads_nonempty (fun b : Bool => b)
    (fun a _ => match a with
      | RArg.orig _ => (Except.ok 100 : Except Unit Nat)
      | RArg.tmp d => Except.ok d.length)
    (fun a b => a + b) (FileArg.strPath "f.tar")
    ⟨true, true, false, [TarEntry.regular [1], TarEntry.regular [2]], none, none, none⟩
    [] rfl [1] [] (by decide)

/-- C2: for a tar archive whose member stream is exactly N ≥ 1 non-empty
regular files (no empty or special members, no failure), and any reader
whose per-payload results are given by `g`, `run` invokes the reader once
per member in member order (the callTmp payloads of the trace are exactly
the members, and there is no call on the original path), and returns the
left-to-right fold of the N per-member results under `combine`, the first
result seeding the aggregate. -/
theorem tar_run_folds_members {V ε ρ : Type} (truthy : V → Bool)
    (reader : RArg → KW V → Except ε ρ) (combine : ρ → ρ → ρ) (s : String)
    (file : FSFile) (kwargs : KW V) (members : List Payload) (m : Payload)
    (ms : List Payload) (g : Payload → ρ)
    (hcc : (popCheckCompression truthy kwargs).1 = true)
    (hex : file.pathExists = true)
    (htar : file.isTar = true)
    (hmem : file.tarEntries = members.map TarEntry.regular)
    (hne : ∀ p ∈ members, p ≠ [])
    (hcons : members = m :: ms)
    (hreader : ∀ p, reader (RArg.tmp p) (popCheckCompression truthy kwargs).2
      = Except.ok (g p)) :
    (run truthy reader combine (FileArg.strPath s) file kwargs).1
      = Except.ok ((ms.map g).foldl combine (g m)) ∧
    tmpPayloads (run truthy reader combine (FileArg.strPath s) file kwargs).2
      = m :: ms ∧
    origCalls (run truthy reader combine (FileArg.strPath s) file kwargs).2 = [] := by
  have hcl : classifyAndExtract s file = some (m :: ms) := by
    simp only [classifyAndExtract, htar, if_true, hmem]
    rw [tarExtract_all_regular members hne, hcons]
  have hrun : run truthy reader combine (FileArg.strPath s) file kwargs
      = payloadRun reader (popCheckCompression truthy kwargs).2 combine m ms := by
    unfold run
    simp [hcc, hex, hcl]
  have hpl := payloadLoop_all_ok combine g hreader ms 1 (g m)
  have hpr : payloadRun reader (popCheckCompression truthy kwargs).2 combine m ms
      = (Except.ok (ms.foldl (fun a p => combine a (g p)) (g m)),
         tempBlock (popCheckCompression truthy kwargs).2 0 m
           ++ blockTrace (popCheckCompression truthy kwargs).2 ms 1) := by
    unfold payloadRun
    rw [hreader m]
    simp [hpl, Except.mapError]
  rw [hrun, hpr]
  refine ⟨?_, ?_, ?_⟩
  · simp [List.foldl_map]
  · rw [tmpPayloads_append, tmpPayloads_blockTrace]
    rfl
  · rw [origCalls_append, origCalls_blockTrace]
    rfl

theorem tar_run_folds_members_app :
    (run (fun b : Bool => b)
      (fun a _ => match a with
        | RArg.orig _ => (Except.ok 100 : Except Unit Nat)
        | RArg.tmp d => Except.ok d.length)
      (fun a b => a + b) (FileArg.strPath "f.tar")
      ⟨true, true, false, [TarEntry.regular [1], TarEntry.regular [2, 3]], none, none, none⟩
      []).1
      = Except.ok (([([2, 3] : Payload)].map (fun d : Payload => d.length)).foldl
          (fun a b => a + b) (([1] : Payload).length)) ∧
    tmpPayloads (run (fun b : Bool => b)
      (fun a _ => match a with
        | RArg.orig _ => (Except.ok 100 : Except Unit Nat)
        | RArg.tmp d => Except.ok d.length)
      (fun a b => a + b) (FileArg.strPath "f.tar")
      ⟨true, true, false, [TarEntry.regular [1], TarEntry.regular [2, 3]], none, none, none⟩
      []).2 = [[1], [2, 3]] ∧
    origCalls (run (fun b : Bool => b)
      (fun a _ => match a with
        | RArg.orig _ => (Except.ok 100 : Except Unit Nat)
        | RArg.tmp d => Except.ok d.length)
      (fun a b => a + b) (FileArg.strPath "f.tar")
      ⟨true, true, false, [TarEntry.regular [1], TarEntry.regular [2, 3]], none, none, none⟩
      []).2 = [] :=
  tar_run_folds_members (fun b : Bool => b)
    (fun a _ => match a with
      | RArg.orig _ => (Except.ok 100 : Except Unit Nat)
      | RArg.tmp d => Except.ok d.length)
    (fun a b => a + b) "f.tar"
    ⟨true, true, false, [TarEntry.regular [1], TarEntry.regular [2, 3]], none, none, none⟩
    [] [[1], [2, 3]] [1] [[2, 3]] (fun d : Payload => d.length)
    rfl rfl rfl rfl (by decide) rfl (fun p => rfl)

/-- C3: every temporary resource `run` acquires is released within the very
trace of that call — on success, on empty extraction, and when the reader
raises mid-way (ids of acquisitions and releases coincide, in order); and
any reader-layer error `run` returns is exactly an error the reader
produced, on some temporary payload or on the original argument, with the
popped kwargs: the error is propagated unmodified. The temporary-file
deletion itself is the spec-modelled `tempBlock` bracket (the
NamedTemporaryFile with-block is outside this slice). -/
theorem run_releases_all_temps_and_propagates_reader_errors {V ε ρ : Type}
    (truthy : V → Bool) (reader : RArg → KW V → Except ε ρ) (combine : ρ → ρ → ρ)
    (arg : FileArg) (file : FSFile) (kwargs : KW V) :
    acquireIds (run truthy reader combine arg file kwargs).2
      = releaseIds (run truthy reader combine arg file kwargs).2 ∧
    ∀ e, (run truthy reader combine arg file kwargs).1
        = Except.error (RunErr.reader e) →
      (∃ d, reader (RArg.tmp d) (popCheckCompression truthy kwargs).2
          = Except.error e) ∨
      reader (RArg.orig arg) (popCheckCompression truthy kwargs).2
        = Except.error e := by
  rcases run_shape truthy reader combine arg file kwargs with
    h | ⟨s, harg, h⟩ | ⟨s, d0, rest, harg, hcl, h⟩
  · rw [h]
    refine ⟨rfl, ?_⟩
    intro e he
    right
    unfold directCall at he
    cases hr : reader (RArg.orig arg) (popCheckCompression truthy kwargs).2 with
    | ok r =>
      rw [hr] at he
      simp [Except.mapError] at he
    | error e0 =>
      rw [hr] at he
      simp only [Except.mapError] at he
      injection he with he2
      injection he2 with he3
      rw [he3]
  · rw [h]
    refine ⟨rfl, ?_⟩
    intro e he
    simp at he
  · rw [h]
    constructor
    · unfold payloadRun
      cases hr : reader (RArg.tmp d0) (popCheckCompression truthy kwargs).2 with
      | error e0 => rfl
      | ok r =>
        simp only
        rw [acquireIds_append, releaseIds_append,
          acq_rel_payloadLoop rest 1 r]
        rfl
    · intro e he
      left
      unfold payloadRun at he
      cases hr : reader (RArg.tmp d0) (popCheckCompression truthy kwargs).2 with
      | error e0 =>
        simp only [hr] at he
        injection he with he2
        injection he2 with he3
        exact ⟨d0, by rw [hr, he3]⟩
      | ok r =>
        simp only [hr] at he
        cases hpl : (payloadLoop reader (popCheckCompression truthy kwargs).2
            combine rest 1 r).1 with
        | ok a =>
          rw [hpl] at he
          simp [Except.mapError] at he
        | error e0 =>
          rw [hpl] at he
          simp only [Except.mapError] at he
          injection he with he2
          injection he2 with he3
          rcases payloadLoop_error rest 1 r e0 hpl with ⟨d2, _, hrd⟩
          exact ⟨d2, by rw [hrd, he3]⟩

theorem run_releases_all_temps_and_propagates_reader_errors_app :
    acquireIds (run (fun b : Bool => b)
      (fun a _ => match a with
        | RArg.orig _ => (Except.ok 100 : Except Nat Nat)
        | RArg.tmp _ => Except.error 3)
      (fun a b => a + b) (FileArg.strPath "f.tar")
      ⟨true, true, false, [TarEntry.regular [1], TarEntry.regular [2]], none, none, none⟩
      []).2
      = releaseIds (run (fun b : Bool => b)
      (fun a _ => match a with
        | RArg.orig _ => (Except.ok 100 : Except Nat Nat)
        | RArg.tmp _ => Except.error 3)
      (fun a b => a + b) (FileArg.strPath "f.tar")
      ⟨true, true, false, [TarEntry.regular [1], TarEntry.regular [2]], none, none, none⟩
      []).2 ∧
    ((∃ d, (fun a _ => match a with
        | RArg.orig _ => (Except.ok 100 : Except Nat Nat)
        | RArg.tmp _ => Except.error 3) (RArg.tmp d) ([] : KW Bool)
        = Except.error 3) ∨
      (fun a _ => match a with
        | RArg.orig _ => (Except.ok 100 : Except Nat Nat)
        | RArg.tmp _ => Except.error 3) (RArg.orig (FileArg.strPath "f.tar"))
        ([] : KW Bool) = Except.error 3) :=
  have h := run_releases_all_temps_and_propagates_reader_errors
    (fun b : Bool => b)
    (fun a _ => match a with
      | RArg.orig _ => (Except.ok 100 : Except Nat Nat)
      | RArg.tmp _ => Except.error 3)
    (fun a b => a + b) (FileArg.strPath "f.tar")
    ⟨true, true, false, [TarEntry.regular [1], TarEntry.regular [2]], none, none, none⟩
    []
  ⟨h.1, h.2 3 rfl⟩

theorem hasKey_pop_check_compression {V : Type} (truthy : V → Bool) (kwargs : KW V)
    (hnd : nodupKeys kwargs) :
    hasKey (popCheckCompression truthy kwargs).2 "check_compression" = false := by
  unfold popCheckCompression
  cases hv : lookupVal kwargs "check_compression" with
  | none =>
    simp only
    rw [← lookupVal_eq_none_iff]
    exact hv
  | some v =>
    simp only
    rw [hasKey_eq_isSome_lookupVal, lookupVal_delKey_self hnd]
    rfl

/-- C10: in every branch of `run` — check_compression opt-out, non-string
first argument, direct-invocation fallback, and per-payload invocation —
the check_compression key is popped from the kwargs before the reader is
invoked: given a duplicate-free kwargs dict, no reader invocation recorded
in the trace carries that key. -/
theorem reader_never_sees_check_compression {V ε ρ : Type} (truthy : V → Bool)
    (reader : RArg → KW V → Except ε ρ) (combine : ρ → ρ → ρ) (arg : FileArg)
    (file : FSFile) (kwargs : KW V) (hnd : nodupKeys kwargs) :
    ∀ e ∈ (run truthy reader combine arg file kwargs).2, ∀ kw2,
      eventKW e = some kw2 → hasKey kw2 "check_compression" = false := by
  have hpop := hasKey_pop_check_compression truthy kwargs hnd
  intro e he kw2 hkw
  rcases run_shape truthy reader combine arg file kwargs with
    h | ⟨s, harg, h⟩ | ⟨s, d0, rest, harg, hcl, h⟩
  · rw [h] at he
    simp only [directCall, List.mem_singleton] at he
    rw [he] at hkw
    simp only [eventKW, Option.some_inj] at hkw
    rw [← hkw]
    exact hpop
  · rw [h] at he
    simp at he
  · rw [h] at he
    unfold payloadRun at he
    cases hr : reader (RArg.tmp d0) (popCheckCompression truthy kwargs).2 with
    | error e0 =>
      simp only [hr] at he
      simp only [tempBlock, List.mem_cons, List.mem_singleton, List.not_mem_nil,
        or_false] at he
      rcases he with h1 | h1 | h1
      · rw [h1] at hkw
        exact absurd hkw (by simp [eventKW])
      · rw [h1] at hkw
        simp only [eventKW, Option.some_inj] at hkw
        rw [← hkw]
        exact hpop
      · rw [h1] at hkw
        exact absurd hkw (by simp [eventKW])
    | ok r =>
      simp only [hr] at he
      rcases List.mem_append.mp he with h0 | h0
      · simp only [tempBlock, List.mem_cons, List.mem_singleton, List.not_mem_nil,
          or_false] at h0
        rcases h0 with h1 | h1 | h1
        · rw [h1] at hkw
          exact absurd hkw (by simp [eventKW])
        · rw [h1] at hkw
          simp only [eventKW, Option.some_inj] at hkw
          rw [← hkw]
          exact hpop
        · rw [h1] at hkw
          exact absurd hkw (by simp [eventKW])
      · rcases eventKW_payloadLoop rest 1 r e h0 with hn | hs
        · rw [hn] at hkw
          simp at hkw
        · rw [hs] at hkw
          simp only [Option.some_inj] at hkw
          rw [← hkw]
          exact hpop

theorem reader_never_sees_check_compression_app :
    hasKey [("x", false)] "check_compression" = false :=
  reader_never_sees_check_compression (fun b : Bool => b)
    (fun _ _ => (Except.ok 0 : Except Unit Nat)) (fun a b => a + b)
    (FileArg.obj true) ⟨false, false, false, [], none, none, none⟩
    [("check_compression", true), ("x", false)] (by unfold nodupKeys; decide)
    (Event.callOrig (FileArg.obj true) [("x", false)]) (by decide)
    [("x", false)] rfl

/-- C5 (code bug): a conflict — two deprecated keys present in kwargs
mapping to the same non-null replacement — is detected before any mutation
and aborts the call: remap returns the line-90 error and echoFunc never
runs the wrapped function, the error listing exactly the old keys that map
to the conflicting target. BUT the replacement key shown to the user is
not the shared target: line 90 interpolates `new_key`, the leftover loop
variable of the counting loop of lines 78-80, i.e. the value of the LAST
`keywords` entry. On keywords {a: x, b: x, c: y} with kwargs {a: 1, b: 2}
the conflict is on x, yet the raised message says to use y. -/
theorem conflict_error_reports_stale_key :
    remap [("a", some "x"), ("b", some "x"), ("c", some "y")]
        [("a", (1 : Nat)), ("b", 2)]
      = Except.error ⟨["a", "b"], some "y"⟩ ∧
    firstConflictTarget [("a", some "x"), ("b", some "x"), ("c", some "y")]
        [("a", (1 : Nat)), ("b", 2)] = some "x" ∧
    echoFunc [("a", some "x"), ("b", some "x"), ("c", some "y")]
        (fun kw => kw.length) [("a", (1 : Nat)), ("b", 2)]
      = Except.error ⟨["a", "b"], some "y"⟩ ∧
    (some "y" : Option String) ≠ some "x" :=
  ⟨rfl, rfl, rfl, by decide⟩

/-- C9 counterexample: the claim describes the produced mapping purely as a
function of the arguments mapping's contents, but the code's sequential
rename loop is order-dependent once a replacement target is itself a
deprecated key. With rename table {a ↦ b, b ↦ dropped} (conflict-free) and
the same arguments mapping {a: 1, b: 2} in its two insertion orders, remap
returns two different mappings; with order [b, a] the result still
contains key b carrying a's value, although the claim's own description
(specRemapLookup) removes the deprecated key b. -/
theorem remap_order_dependent :
    remap [("a", some "b"), ("b", (none : Option String))]
        [("b", (2 : Nat)), ("a", 1)]
      = Except.ok ([("b", 1)], [Action.dropped "b", Action.renamed "a" "b"]) ∧
    specRemapLookup [("a", some "b"), ("b", (none : Option String))]
        [("b", (2 : Nat)), ("a", 1)] "b" = none ∧
    remap [("a", some "b"), ("b", (none : Option String))]
        [("a", (1 : Nat)), ("b", 2)]
      = Except.ok ([], [Action.renamed "a" "b", Action.dropped "b"]) :=
  ⟨rfl, rfl, rfl⟩

theorem fresh_target_not_dep {table : Table}
    (hfresh : ∀ p ∈ table, ∀ t, p.2 = some t → hasKey table t = false)
    {kw nkw : String} (h : lookupVal table kw = some (some nkw)) :
    hasKey table nkw = false :=
  hfresh (kw, some nkw) (mem_of_lookupVal_eq_some h) nkw rfl

theorem renameLoop_none_dep {V : Type} {table : Table}
    (hfresh : ∀ p ∈ table, ∀ t, p.2 = some t → hasKey table t = false)
    {k : String} (hk : hasKey table k = true) :
    ∀ (keys : List String) (kwargs : KW V) (log : List Action),
      lookupVal kwargs k = none →
      lookupVal (renameLoop table keys kwargs log).1 k = none := by
  intro keys
  induction keys with
  | nil => intro kwargs log hv; simpa [renameLoop] using hv
  | cons kw rest ih =>
    intro kwargs log hv
    cases hl : lookupVal table kw with
    | none =>
      simp only [renameLoop, hl]
      exact ih _ _ hv
    | some tk =>
      cases tk with
      | none =>
        simp only [renameLoop, hl]
        exact ih _ _ (lookupVal_delKey_of_none kw hv)
      | some nkw =>
        cases hvk : lookupVal kwargs kw with
        | none =>
          simp only [renameLoop, hl, hvk]
          exact ih _ _ hv
        | some v =>
          have hne : k ≠ nkw := by
            intro heq
            have hnf := fresh_target_not_dep hfresh hl
            rw [← heq, hk] at hnf
            exact absurd hnf (by simp)
          have hset : lookupVal (setKey kwargs nkw v) k = none := by
            rw [lookupVal_setKey_other kwargs v hne]
            exact hv
          simp only [renameLoop, hl, hvk]
          exact ih _ _ (lookupVal_delKey_of_none kw hset)

theorem renameLoop_mem_dep {V : Type} {table : Table}
    (hfresh : ∀ p ∈ table, ∀ t, p.2 = some t → hasKey table t = false)
    {k : String} (hk : hasKey table k = true) :
    ∀ (keys : List String) (kwargs : KW V) (log : List Action),
      k ∈ keys → nodupKeys kwargs →
      lookupVal (renameLoop table keys kwargs log).1 k = none := by
  intro keys
  induction keys with
  | nil => intro kwargs log hmem; simp at hmem
  | cons kw rest ih =>
    intro kwargs log hmem hnd
    by_cases hkw : kw = k
    · subst hkw
      cases hl : lookupVal table kw with
      | none =>
        rw [lookupVal_eq_none_iff] at hl
        rw [hl] at hk
        exact absurd hk (by simp)
      | some tk =>
        cases tk with
        | none =>
          simp only [renameLoop, hl]
          exact renameLoop_none_dep hfresh hk rest _ _ (lookupVal_delKey_self hnd)
        | some nkw =>
          cases hvk : lookupVal kwargs kw with
          | none =>
            simp only [renameLoop, hl, hvk]
            exact renameLoop_none_dep hfresh hk rest _ _ hvk
          | some v =>
            simp only [renameLoop, hl, hvk]
            exact renameLoop_none_dep hfresh hk rest _ _
              (lookupVal_delKey_self (nodupKeys_setKey nkw v hnd))
    · have hmem2 : k ∈ rest := by
        rcases List.mem_cons.mp hmem with h0 | h0
        · exact absurd h0.symm hkw
        · exact h0
      cases hl : lookupVal table kw with
      | none =>
        simp only [renameLoop, hl]
        exact ih _ _ hmem2 hnd
      | some tk =>
        cases tk with
        | none =>
          simp only [renameLoop, hl]
          exact ih _ _ hmem2 (nodupKeys_delKey kw hnd)
        | some nkw =>
          cases hvk : lookupVal kwargs kw with
          | none =>
            simp only [renameLoop, hl, hvk]
            exact ih _ _ hmem2 hnd
          | some v =>
            simp only [renameLoop, hl, hvk]
            exact ih _ _ hmem2 (nodupKeys_delKey kw (nodupKeys_setKey nkw v hnd))

theorem renameLoop_untouched {V : Type} {table : Table}
    (hfresh : ∀ p ∈ table, ∀ t, p.2 = some t → hasKey table t = false)
    {k : String} (hk : hasKey table k = false) :
    ∀ (keys : List String) (kwargs : KW V) (log : List Action),
      (∀ j ∈ keys, ∀ tj, lookupVal table j = some (some tj) → tj = k →
        lookupVal kwargs j = none) →
      nodupKeys kwargs →
      lookupVal (renameLoop table keys kwargs log).1 k = lookupVal kwargs k := by
  intro keys
  induction keys with
  | nil => intro kwargs log hj hnd; rfl
  | cons kw rest ih =>
    intro kwargs log hj hnd
    cases hl : lookupVal table kw with
    | none =>
      simp only [renameLoop, hl]
      exact ih _ _ (fun j hjr => hj j (List.mem_cons_of_mem kw hjr)) hnd
    | some tk =>
      have hkwdep : hasKey table kw = true := by
        rw [hasKey_eq_isSome_lookupVal, hl]
        rfl
      have hkwk : k ≠ kw := by
        intro heq
        rw [heq, hkwdep] at hk
        exact absurd hk (by simp)
      cases tk with
      | none =>
        simp only [renameLoop, hl]
        rw [ih (delKey kwargs kw) _ ?_ (nodupKeys_delKey kw hnd),
          lookupVal_delKey_other kwargs hkwk]
        intro j hjr tj htj htjk
        by_cases hjkw : j = kw
        · rw [hjkw]
          exact lookupVal_delKey_self hnd
        · rw [lookupVal_delKey_other kwargs hjkw]
          exact hj j (List.mem_cons_of_mem kw hjr) tj htj htjk
      | some nkw =>
        cases hvk : lookupVal kwargs kw with
        | none =>
          simp only [renameLoop, hl, hvk]
          exact ih _ _ (fun j hjr => hj j (List.mem_cons_of_mem kw hjr)) hnd
        | some v =>
          have hnkwk : nkw ≠ k := by
            intro heq
            have hnone := hj kw (List.mem_cons_self kw rest) nkw hl heq
            rw [hvk] at hnone
            exact absurd hnone (by simp)
          have hknkw : k ≠ nkw := fun h2 => hnkwk h2.symm
          simp only [renameLoop, hl, hvk]
          rw [ih (delKey (setKey kwargs nkw v) kw) _ ?_
              (nodupKeys_delKey kw (nodupKeys_setKey nkw v hnd)),
            lookupVal_delKey_other _ hkwk, lookupVal_setKey_other kwargs v hknkw]
          intro j hjr tj htj htjk
          by_cases hjkw : j = kw
          · rw [hjkw]
            exact lookupVal_delKey_self (nodupKeys_setKey nkw v hnd)
          · have hjdep : hasKey table j = true := by
              rw [hasKey_eq_isSome_lookupVal, htj]
              rfl
            have hjnkw : j ≠ nkw := by
              intro heq
              have hnf := fresh_target_not_dep hfresh hl
              rw [← heq, hjdep] at hnf
              exact absurd hnf (by simp)
            rw [lookupVal_delKey_other _ hjkw, lookupVal_setKey_other kwargs v hjnkw]
            exact hj j (List.mem_cons_of_mem kw hjr) tj htj htjk

theorem renameLoop_moved {V : Type} {table : Table}
    (hfresh : ∀ p ∈ table, ∀ t, p.2 = some t → hasKey table t = false)
    {k j : String} {v : V} (hk : hasKey table k = false)
    (htj : lookupVal table j = some (some k)) :
    ∀ (keys : List String) (kwargs : KW V) (log : List Action),
      j ∈ keys →
      lookupVal kwargs j = some v →
      (∀ j2 ∈ keys, ∀ t2, lookupVal table j2 = some (some t2) → t2 = k → j2 = j) →
      nodupKeys kwargs →
      lookupVal (renameLoop table keys kwargs log).1 k = some v := by
  intro keys
  induction keys with
  | nil => intro kwargs log hmem; simp at hmem
  | cons kw rest ih =>
    intro kwargs log hmem hv huniq hnd
    have hjdep : hasKey table j = true := by
      rw [hasKey_eq_isSome_lookupVal, htj]
      rfl
    have hjk : j ≠ k := by
      intro heq
      rw [heq, hk] at hjdep
      exact absurd hjdep (by simp)
    have hkj : k ≠ j := fun h2 => hjk h2.symm
    by_cases hkwj : kw = j
    · subst hkwj
      simp only [renameLoop, htj, hv]
      have hnd2 : nodupKeys (setKey kwargs k v) := nodupKeys_setKey k v hnd
      rw [renameLoop_untouched hfresh hk rest _ _ ?_ (nodupKeys_delKey kw hnd2),
        lookupVal_delKey_other _ hkj, lookupVal_setKey_self]
      intro j2 hj2r t2 ht2 ht2k
      have hj2 : j2 = kw := huniq j2 (List.mem_cons_of_mem kw hj2r) t2 ht2 ht2k
      rw [hj2]
      exact lookupVal_delKey_self hnd2
    · have hmem2 : j ∈ rest := by
        rcases List.mem_cons.mp hmem with h0 | h0
        · exact absurd h0.symm hkwj
        · exact h0
      have hjkw : j ≠ kw := fun h2 => hkwj h2.symm
      have huniq2 : ∀ j2 ∈ rest, ∀ t2, lookupVal table j2 = some (some t2) →
          t2 = k → j2 = j :=
        fun j2 hj2r => huniq j2 (List.mem_cons_of_mem kw hj2r)
      cases hl : lookupVal table kw with
      | none =>
        simp only [renameLoop, hl]
        exact ih _ _ hmem2 hv huniq2 hnd
      | some tk =>
        cases tk with
        | none =>
          simp only [renameLoop, hl]
          exact ih _ _ hmem2
            (by rw [lookupVal_delKey_other kwargs hjkw]; exact hv) huniq2
            (nodupKeys_delKey kw hnd)
        | some nkw =>
          cases hvk : lookupVal kwargs kw with
          | none =>
            simp only [renameLoop, hl, hvk]
            exact ih _ _ hmem2 hv huniq2 hnd
          | some v2 =>
            have hjnkw : j ≠ nkw := by
              intro heq
              have hnf := fresh_target_not_dep hfresh hl
              rw [← heq, hjdep] at hnf
              exact absurd hnf (by simp)
            simp only [renameLoop, hl, hvk]
            exact ih _ _ hmem2
              (by
                rw [lookupVal_delKey_other _ hjkw,
                  lookupVal_setKey_other kwargs v2 hjnkw]
                exact hv)
              huniq2 (nodupKeys_delKey kw (nodupKeys_setKey nkw v2 hnd))

theorem renameLoop_log {V : Type} (table : Table) :
    ∀ (keys : List String) (kwargs : KW V) (log : List Action),
      keys.Nodup → (∀ j ∈ keys, hasKey kwargs j = true) →
      (renameLoop table keys kwargs log).2
        = log ++ keys.filterMap (fun kw =>
            match lookupVal table kw with
            | some none => some (Action.dropped kw)
            | some (some t) => some (Action.renamed kw t)
            | none => none) := by
  intro keys
  induction keys with
  | nil => intro kwargs log hndk hpres; simp [renameLoop]
  | cons kw rest ih =>
    intro kwargs log hndk hpres
    rw [List.nodup_cons] at hndk
    have hpresr : ∀ j ∈ rest, j ≠ kw := by
      intro j hjr heq
      exact hndk.1 (heq ▸ hjr)
    cases hl : lookupVal table kw with
    | none =>
      simp only [renameLoop, hl]
      rw [ih kwargs log hndk.2 (fun j hjr => hpres j (List.mem_cons_of_mem kw hjr))]
      rw [List.filterMap_cons]
      simp only [hl]
    | some tk =>
      cases tk with
      | none =>
        simp only [renameLoop, hl]
        rw [ih (delKey kwargs kw) _ hndk.2 ?_]
        · rw [List.filterMap_cons]
          simp only [hl, List.append_assoc, List.singleton_append]
        · intro j hjr
          rw [hasKey_delKey_other kwargs (hpresr j hjr)]
          exact hpres j (List.mem_cons_of_mem kw hjr)
      | some nkw =>
        obtain ⟨v, hv⟩ := exists_lookupVal_of_hasKey
          (hpres kw (List.mem_cons_self kw rest))
        simp only [renameLoop, hl, hv]
        rw [ih (delKey (setKey kwargs nkw v) kw) _ hndk.2 ?_]
        · rw [List.filterMap_cons]
          simp only [hl, List.append_assoc, List.singleton_append]
        · intro j hjr
          rw [hasKey_delKey_other _ (hpresr j hjr)]
          exact hasKey_setKey_of_hasKey v (hpres j (List.mem_cons_of_mem kw hjr))

theorem countFor_le_one_of_no_conflict {V : Type} {table : Table} {kwargs : KW V}
    (hnoc : firstConflictTarget table kwargs = none) {t : String}
    (hmem : some t ∈ table.map Prod.snd) :
    countFor table kwargs (some t) ≤ 1 := by
  unfold firstConflictTarget at hnoc
  cases hf : (table.map Prod.snd).find?
      (fun t2 => t2.isSome && decide (countFor table kwargs t2 > 1)) with
  | some x =>
    rw [hf] at hnoc
    have hx := List.find?_some hf
    cases x with
    | none => simp at hx
    | some y => simp at hnoc
  | none =>
    have hnp := List.find?_eq_none.mp hf (some t) hmem
    simp only [Option.isSome_some, Bool.true_and, decide_eq_true_eq] at hnp
    omega

/-- C9 (amended): the claim's declarative description of remap holds
whenever no replacement target of the rename table is itself a deprecated
key (and keys are duplicate-free, and there is no conflict): remap
succeeds, the produced mapping looks up exactly as the spec says — every
deprecated key absent (dropped or renamed away), a key targeted by a
present deprecated key carrying that key's value (overwriting its own),
every other key untouched — and the action log records one
Dropped/Renamed per present deprecated key in mapping order. When a target
is itself deprecated, the sequential loop makes the outcome depend on the
mapping's insertion order (see the counterexample), which no
content-determined description can match. -/
theorem remap_matches_spec_when_targets_fresh {V : Type} (table : Table)
    (kwargs : KW V) (hknd : nodupKeys kwargs) (htnd : nodupKeys table)
    (hfresh : ∀ p ∈ table, ∀ t, p.2 = some t → hasKey table t = false)
    (hnoc : firstConflictTarget table kwargs = none) :
    remap table kwargs
      = Except.ok (renameLoop table (kwargs.map Prod.fst) kwargs []) ∧
    (∀ k, lookupVal (renameLoop table (kwargs.map Prod.fst) kwargs []).1 k
        = specRemapLookup table kwargs k) ∧
    (renameLoop table (kwargs.map Prod.fst) kwargs []).2
      = specActions table kwargs := by
  refine ⟨?_, ?_, ?_⟩
  · unfold remap
    rw [hnoc]
  · intro k
    by_cases hk : hasKey table k = true
    · have hspec : specRemapLookup table kwargs k = none := by
        simp [specRemapLookup, hk]
      rw [hspec]
      by_cases hkw : hasKey kwargs k = true
      · exact renameLoop_mem_dep hfresh hk _ kwargs []
          ((hasKey_iff_mem_keys kwargs k).mp hkw) hknd
      · have hkw2 : hasKey kwargs k = false := by simpa using hkw
        exact renameLoop_none_dep hfresh hk _ kwargs []
          ((lookupVal_eq_none_iff kwargs k).mpr hkw2)
    · have hk2 : hasKey table k = false := by simpa using hk
      cases hfil : table.filter (fun p => p.2 == some k && hasKey kwargs p.1) with
      | nil =>
        have hspec : specRemapLookup table kwargs k = lookupVal kwargs k := by
          simp only [specRemapLookup, hk2, Bool.false_eq_true, if_false]
          rw [hfil]
        rw [hspec]
        apply renameLoop_untouched hfresh hk2 _ kwargs [] ?_ hknd
        intro j hjk tj htj htjk
        exfalso
        have hjmem : (j, some tj) ∈ table := mem_of_lookupVal_eq_some htj
        have hjkw : hasKey kwargs j = true := (hasKey_iff_mem_keys kwargs j).mpr hjk
        have hinf : (j, some tj)
            ∈ table.filter (fun p => p.2 == some k && hasKey kwargs p.1) := by
          rw [List.mem_filter]
          refine ⟨hjmem, ?_⟩
          rw [htjk]
          simp [hjkw]
        rw [hfil] at hinf
        simp at hinf
      | cons p rest2 =>
        have hpmem : p ∈ table.filter (fun p => p.2 == some k && hasKey kwargs p.1) := by
          rw [hfil]
          exact List.mem_cons_self p rest2
        have hpt := (List.mem_filter.mp hpmem).1
        have hppred := (List.mem_filter.mp hpmem).2
        simp only [Bool.and_eq_true] at hppred
        rcases hppred with ⟨hbeq, hpk⟩
        have hp2 : p.2 = some k := by simpa using hbeq
        obtain ⟨v, hv⟩ := exists_lookupVal_of_hasKey hpk
        have hspec : specRemapLookup table kwargs k = some v := by
          simp only [specRemapLookup, hk2, Bool.false_eq_true, if_false]
          rw [hfil]
          exact hv
        rw [hspec]
        have hpmem2 : (p.1, p.2) ∈ table := by
          rw [Prod.mk.eta]
          exact hpt
        have htabj : lookupVal table p.1 = some (some k) := by
          have hl := lookupVal_of_mem_nodup htnd hpmem2
          rw [hp2] at hl
          exact hl
        have hmemsnd : some k ∈ table.map Prod.snd := by
          rw [← hp2]
          exact List.mem_map.mpr ⟨p, hpt, rfl⟩
        have hcount : (table.filter
            (fun p => p.2 == some k && hasKey kwargs p.1)).length ≤ 1 :=
          countFor_le_one_of_no_conflict hnoc hmemsnd
        have hr2 : rest2 = [] := by
          rw [hfil, List.length_cons] at hcount
          have h0 : rest2.length = 0 := by omega
          exact List.eq_nil_of_length_eq_zero h0
        have huniq : ∀ j2 ∈ kwargs.map Prod.fst, ∀ t2,
            lookupVal table j2 = some (some t2) → t2 = k → j2 = p.1 := by
          intro j2 hj2 t2 ht2 ht2k
          have hmem2 : (j2, some t2) ∈ table := mem_of_lookupVal_eq_some ht2
          have hj2kw : hasKey kwargs j2 = true :=
            (hasKey_iff_mem_keys kwargs j2).mpr hj2
          have hinf : (j2, some t2)
              ∈ table.filter (fun p => p.2 == some k && hasKey kwargs p.1) := by
            rw [List.mem_filter]
            refine ⟨hmem2, ?_⟩
            rw [ht2k]
            simp [hj2kw]
          rw [hfil, hr2, List.mem_singleton] at hinf
          exact congrArg Prod.fst hinf
        exact renameLoop_moved hfresh hk2 htabj _ kwargs []
          ((hasKey_iff_mem_keys kwargs p.1).mp hpk) hv huniq hknd
  · have hlog := renameLoop_log table (kwargs.map Prod.fst) kwargs [] hknd
      (fun j hj => (hasKey_iff_mem_keys kwargs j).mpr hj)
    rw [List.nil_append] at hlog
    exact hlog

theorem remap_matches_spec_when_targets_fresh_app :
    remap [("a", some "x")] [("a", (1 : Nat)), ("k", 5)]
      = Except.ok (renameLoop [("a", some "x")]
          ([("a", (1 : Nat)), ("k", 5)].map Prod.fst)
          [("a", (1 : Nat)), ("k", 5)] []) ∧
    lookupVal (renameLoop [("a", some "x")]
        ([("a", (1 : Nat)), ("k", 5)].map Prod.fst)
        [("a", (1 : Nat)), ("k", 5)] []).1 "x"
      = specRemapLookup [("a", some "x")] [("a", (1 : Nat)), ("k", 5)] "x" ∧
    (renameLoop [("a", some "x")]
        ([("a", (1 : Nat)), ("k", 5)].map Prod.fst)
        [("a", (1 : Nat)), ("k", 5)] []).2
      = specActions [("a", some "x")] [("a", (1 : Nat)), ("k", 5)] :=
  have h := remap_matches_spec_when_targets_fresh [("a", some "x")]
    [("a", (1 : Nat)), ("k", 5)]
    (by unfold nodupKeys; decide) (by unfold nodupKeys; decide)
    (by
      intro p hp t ht
      rw [List.mem_singleton] at hp
      subst hp
      injection ht with ht2
      subst ht2
      decide)
    (by decide)
  ⟨h.1, h.2.1 "x", h.2.2⟩

end ObsPy
